import Mathlib

/-!
# Verification of the jsite-cache core (Stat accumulator and Cache store)

This file is a shallow embedding of the two core components of the
jsite-cache library:

* `Stat` (src Stat.ts, current revision): an ordered sequence of numeric
  samples with summary accessors and a lossy compact/expand encoding.
* `Cache` (src Cache.ts, current revision): a two-level mapping from a
  formatted key string to a formatted args string to a cache record, with
  TTL-based reads, writes, removal, sweeping and merging.

JavaScript numbers are modelled by `JSNum`: an exact rational for every
finite value, plus `posInf`, `negInf` and `nan`.  Binary floating point
representation error is not modelled (all arithmetic is exact on ℚ); every
concrete input used in the theorems below only involves values and
operations on which IEEE doubles are exact, so the model is faithful there.
JavaScript objects are modelled by insertion-ordered association lists,
mirroring object key insertion order, in-place update and `delete`.
-/
/-!
Rational arithmetic.  Mathlib's `Rat.add`, `Rat.sub`, `Rat.mul` and
`Rat.inv` are `@[irreducible]`, which prevents `decide`-style evaluation of
the model on concrete inputs.  The wrappers below are definitionally built
from `mkRat`/`Rat.divInt` (which do reduce) and are proved equal to the
standard ℚ operations, so the model computes and still means ordinary
rational arithmetic.
-/
/-- Addition on ℚ, stated through `mkRat` so that it evaluates. -/
def qAdd (a b : ℚ) : ℚ := mkRat (a.num * b.den + b.num * a.den) (a.den * b.den)

/-- Subtraction on ℚ, stated through `mkRat` so that it evaluates. -/
def qSub (a b : ℚ) : ℚ := mkRat (a.num * b.den - b.num * a.den) (a.den * b.den)

/-- Multiplication on ℚ, stated through `mkRat` so that it evaluates. -/
def qMul (a b : ℚ) : ℚ := mkRat (a.num * b.num) (a.den * b.den)

/-- Division on ℚ, stated through `Rat.divInt` so that it evaluates
(division by zero yields zero, as in Mathlib). -/
def qDiv (a b : ℚ) : ℚ := Rat.divInt (a.num * b.den) (a.den * b.num)

/-- A JavaScript number: finite (exact rational), an infinity, or NaN. -/
inductive JSNum where
  | fin (q : ℚ)
  | posInf
  | negInf
  | nan
deriving DecidableEq, Repr, Inhabited

namespace JSNum

/-- JavaScript strict `<` on numbers: any comparison with NaN is false,
`-Infinity` is below and `Infinity` above every other value. -/
def jsLt : JSNum → JSNum → Bool
  | nan, _ => false
  | _, nan => false
  | fin p, fin q => decide (p < q)
  | fin _, posInf => true
  | fin _, negInf => false
  | posInf, _ => false
  | negInf, negInf => false
  | negInf, _ => true

/-- `Math.max` on two numbers: NaN-propagating, otherwise the larger. -/
def jsMax (a b : JSNum) : JSNum :=
  if a = nan ∨ b = nan then nan else if jsLt a b then b else a

/-- `Math.min` on two numbers: NaN-propagating, otherwise the smaller. -/
def jsMin (a b : JSNum) : JSNum :=
  if a = nan ∨ b = nan then nan else if jsLt b a then b else a

/-- JavaScript `+` on numbers. -/
def jsAdd : JSNum → JSNum → JSNum
  | nan, _ => nan
  | _, nan => nan
  | fin p, fin q => fin (qAdd p q)
  | fin _, posInf => posInf
  | fin _, negInf => negInf
  | posInf, posInf => posInf
  | posInf, fin _ => posInf
  | posInf, negInf => nan
  | negInf, negInf => negInf
  | negInf, fin _ => negInf
  | negInf, posInf => nan

/-- JavaScript unary negation on numbers. -/
def jsNeg : JSNum → JSNum
  | fin q => fin (-q)
  | posInf => negInf
  | negInf => posInf
  | nan => nan

/-- JavaScript `-` on numbers. -/
def jsSub (a b : JSNum) : JSNum := jsAdd a (jsNeg b)

/-- JavaScript `*` on numbers. -/
def jsMul : JSNum → JSNum → JSNum
  | nan, _ => nan
  | _, nan => nan
  | fin p, fin q => fin (qMul p q)
  | fin p, posInf => if p > 0 then posInf else if p < 0 then negInf else nan
  | fin p, negInf => if p > 0 then negInf else if p < 0 then posInf else nan
  | posInf, fin q => if q > 0 then posInf else if q < 0 then negInf else nan
  | negInf, fin q => if q > 0 then negInf else if q < 0 then posInf else nan
  | posInf, posInf => posInf
  | posInf, negInf => negInf
  | negInf, posInf => negInf
  | negInf, negInf => posInf

/-- JavaScript `/` on numbers (signed zero is not modelled: division of a
nonzero finite value by zero yields `posInf`/`negInf` by the sign of the
numerator, `0 / 0` yields NaN). -/
def jsDiv : JSNum → JSNum → JSNum
  | nan, _ => nan
  | _, nan => nan
  | fin p, fin q =>
    if q = 0 then (if p > 0 then posInf else if p < 0 then negInf else nan)
    else fin (qDiv p q)
  | fin _, posInf => fin 0
  | fin _, negInf => fin 0
  | posInf, fin q => if q < 0 then negInf else posInf
  | negInf, fin q => if q < 0 then posInf else negInf
  | posInf, _ => nan
  | negInf, _ => nan

/-- `Math.round`: nearest integer, halves toward `+Infinity`; infinities and
NaN pass through. -/
def jsRound : JSNum → JSNum
  | fin q => fin (Rat.ofInt (qAdd q (mkRat 1 2)).floor)
  | posInf => posInf
  | negInf => negInf
  | nan => nan

/-- `Number.EPSILON`, i.e. `2 ^ (-52)`. -/
def epsilon : JSNum := fin (mkRat 1 4503599627370496)

end JSNum

open JSNum

/-- `Math.max(...values)`: `-Infinity` for the empty spread, NaN-propagating
maximum otherwise, folded left over the argument list. -/
def jsMaxList (values : List JSNum) : JSNum := values.foldl jsMax negInf

/-- `Math.min(...values)`: `Infinity` for the empty spread, NaN-propagating
minimum otherwise, folded left over the argument list. -/
def jsMinList (values : List JSNum) : JSNum := values.foldl jsMin posInf

/-- The `Stat` accumulator: an insertion-ordered sequence of numeric
samples (`this.values` in Stat.ts). -/
structure Stat where
  values : List JSNum
deriving DecidableEq, Repr, Inhabited

/-- The compact form of a `Stat` (`StatCompactInterface` plus the `last`
field the current revision writes).  `toCompact` always produces the sample
count, a natural number, for `count`. -/
structure StatCompact where
  count : Nat
  max : JSNum
  min : JSNum
  sum : JSNum
  last : JSNum
deriving DecidableEq, Repr, Inhabited

/-- Argument of `Stat.fromCompact`: either an existing `Stat` instance
(the `instanceof Stat` passthrough branch) or a plain compact record with
all of the `count`/`min`/`max`/`sum` fields present. -/
inductive StatLike where
  | full (s : Stat)
  | compact (c : StatCompact)
deriving DecidableEq, Repr, Inhabited

namespace Stat

/-- `add(...items)`: appends samples in order. -/
def add (s : Stat) (items : List JSNum) : Stat := ⟨s.values ++ items⟩

/-- `getLast(fallback = 0)`: the most recent sample, or the fallback when
no sample has been recorded. -/
def getLast (s : Stat) (fallback : JSNum := .fin 0) : JSNum :=
  match s.values.getLast? with
  | some v => v
  | none => fallback

/-- `getCount()`: the number of recorded samples. -/
def getCount (s : Stat) : Nat := s.values.length

/-- `getMax()`: `Math.max(...this.values)`. -/
def getMax (s : Stat) : JSNum := jsMaxList s.values

/-- `getMin()`: `Math.min(...this.values)`. -/
def getMin (s : Stat) : JSNum := jsMinList s.values

/-- `getSum()`: `this.values.reduce((total, value) => total + value, 0)`. -/
def getSum (s : Stat) : JSNum := s.values.foldl jsAdd (.fin 0)

/-- `getAverage()`: `getSum() / getCount()` (NaN when the Stat is empty). -/
def getAverage (s : Stat) : JSNum := jsDiv s.getSum (.fin (mkRat s.getCount 1))

/-- `Stat.round`: `Math.round((number + Number.EPSILON) * 100) / 100`. -/
def round (number : JSNum) : JSNum :=
  jsDiv (jsRound (jsMul (jsAdd number epsilon) (.fin 100))) (.fin 100)

/-- `toCompact()`: the lossy summary; `min`/`max`/`sum` are rounded to two
decimals via `Stat.round`, `last` is kept unrounded. -/
def toCompact (s : Stat) : StatCompact :=
  { count := s.getCount
    max := round s.getMax
    min := round s.getMin
    sum := round s.getSum
    last := s.getLast }

/-- `Stat.fromCompact`: an existing `Stat` passes through unchanged; a
compact record is expanded to a synthetic sample list.  `last` is always
retained, `min` is prepended when strictly below `last` and `max` when
strictly above `last`; the remaining `count - uncompact.length` slots are
all filled with `(sum - min - max) / (count - uncompact.length)` (the
source builds them with `new Array(n).fill(v).concat(uncompact)`). -/
def fromCompact : StatLike → Stat
  | .full s => s
  | .compact c =>
    let uncompact := [c.last]
    let uncompact := if jsLt c.min c.last then c.min :: uncompact else uncompact
    let uncompact := if jsLt c.last c.max then c.max :: uncompact else uncompact
    let n := c.count - uncompact.length
    ⟨List.replicate n (jsDiv (jsSub (jsSub c.sum c.min) c.max) (.fin (mkRat ((c.count : ℤ) - (uncompact.length : ℤ)) 1))) ++ uncompact⟩

end Stat

/-!
## JSON payloads and key formatting

Cache payloads (`data`), argument lists and keys are JSON-representable
JavaScript values.  `JSON.stringify` is modelled for strings (with quote,
backslash and common control-character escaping), booleans, `null`, arrays
and objects; number rendering is only guaranteed faithful for integers,
which covers every value the theorems below stringify.  Object fields keep
insertion order, as `JSON.stringify` does.
-/
/-- A JSON value (payloads that the cache stores and serializes). -/
inductive JSON where
  | null
  | bool (b : Bool)
  | num (q : ℚ)
  | str (s : String)
  | arr (elems : List JSON)
  | obj (fields : List (String × JSON))

mutual

/-- Decidable equality of JSON values (the automatic deriving handler does
not support nested inductives). -/
def jsonDecEq : (a b : JSON) → Decidable (a = b)
  | .null, .null => isTrue rfl
  | .bool x, .bool y =>
    match decEq x y with
    | isTrue h => isTrue (by rw [h])
    | isFalse h => isFalse (fun hh => h (by injection hh))
  | .num x, .num y =>
    match decEq x y with
    | isTrue h => isTrue (by rw [h])
    | isFalse h => isFalse (fun hh => h (by injection hh))
  | .str x, .str y =>
    match decEq x y with
    | isTrue h => isTrue (by rw [h])
    | isFalse h => isFalse (fun hh => h (by injection hh))
  | .arr x, .arr y =>
    match jsonDecEqList x y with
    | isTrue h => isTrue (by rw [h])
    | isFalse h => isFalse (fun hh => h (by injection hh))
  | .obj x, .obj y =>
    match jsonDecEqFields x y with
    | isTrue h => isTrue (by rw [h])
    | isFalse h => isFalse (fun hh => h (by injection hh))
  | .null, .bool _ | .null, .num _ | .null, .str _ | .null, .arr _ | .null, .obj _ =>
    isFalse (fun h => JSON.noConfusion h)
  | .bool _, .null | .bool _, .num _ | .bool _, .str _ | .bool _, .arr _ | .bool _, .obj _ =>
    isFalse (fun h => JSON.noConfusion h)
  | .num _, .null | .num _, .bool _ | .num _, .str _ | .num _, .arr _ | .num _, .obj _ =>
    isFalse (fun h => JSON.noConfusion h)
  | .str _, .null | .str _, .bool _ | .str _, .num _ | .str _, .arr _ | .str _, .obj _ =>
    isFalse (fun h => JSON.noConfusion h)
  | .arr _, .null | .arr _, .bool _ | .arr _, .num _ | .arr _, .str _ | .arr _, .obj _ =>
    isFalse (fun h => JSON.noConfusion h)
  | .obj _, .null | .obj _, .bool _ | .obj _, .num _ | .obj _, .str _ | .obj _, .arr _ =>
    isFalse (fun h => JSON.noConfusion h)

/-- Decidable equality of JSON value lists. -/
def jsonDecEqList : (a b : List JSON) → Decidable (a = b)
  | [], [] => isTrue rfl
  | [], _ :: _ => isFalse (fun h => List.noConfusion h)
  | _ :: _, [] => isFalse (fun h => List.noConfusion h)
  | x :: xs, y :: ys =>
    match jsonDecEq x y, jsonDecEqList xs ys with
    | isTrue h1, isTrue h2 => isTrue (by rw [h1, h2])
    | isFalse h1, _ => isFalse (fun hh => h1 (by injection hh))
    | _, isFalse h2 => isFalse (fun hh => h2 (by injection hh))

/-- Decidable equality of JSON object field lists. -/
def jsonDecEqFields : (a b : List (String × JSON)) → Decidable (a = b)
  | [], [] => isTrue rfl
  | [], _ :: _ => isFalse (fun h => List.noConfusion h)
  | _ :: _, [] => isFalse (fun h => List.noConfusion h)
  | (k, x) :: xs, (l, y) :: ys =>
    match decEq k l, jsonDecEq x y, jsonDecEqFields xs ys with
    | isTrue h0, isTrue h1, isTrue h2 => isTrue (by rw [h0, h1, h2])
    | isFalse h0, _, _ =>
      isFalse (fun hh => h0 (congrArg Prod.fst (by injection hh)))
    | _, isFalse h1, _ =>
      isFalse (fun hh => h1 (congrArg Prod.snd (by injection hh)))
    | _, _, isFalse h2 => isFalse (fun hh => h2 (by injection hh))

end

instance : DecidableEq JSON := jsonDecEq

instance : Inhabited JSON := ⟨JSON.null⟩

/-- Escaping of one character inside a JSON string literal. -/
def escapeChar (c : Char) : String :=
  if c = '"' then "\\\""
  else if c = '\\' then "\\\\"
  else if c = '\n' then "\\n"
  else if c = '\t' then "\\t"
  else if c = '\r' then "\\r"
  else String.singleton c

/-- Escaping of a JSON string body (written over the underlying character
list; `String.foldl` itself is position-based and does not reduce in the
kernel). -/
def escapeString (s : String) : String :=
  ⟨s.data.foldl (fun acc c => acc ++ (escapeChar c).data) []⟩

/-- Rendering of a JSON number (faithful for integers; non-integral values
never reach `JSON.stringify` in the theorems below). -/
def numToString (q : ℚ) : String :=
  if q.den = 1 then toString q.num else toString q.num ++ "/" ++ toString q.den

mutual

/-- `JSON.stringify` of a value. -/
def jsonStringify : JSON → String
  | .null => "null"
  | .bool true => "true"
  | .bool false => "false"
  | .num q => numToString q
  | .str s => "\"" ++ escapeString s ++ "\""
  | .arr elems => "[" ++ jsonStringifyList elems ++ "]"
  | .obj fields => "\x7b" ++ jsonStringifyFields fields ++ "\x7d"

/-- Comma-joined rendering of array elements. -/
def jsonStringifyList : List JSON → String
  | [] => ""
  | [x] => jsonStringify x
  | x :: xs => jsonStringify x ++ "," ++ jsonStringifyList xs

/-- Comma-joined rendering of object fields. -/
def jsonStringifyFields : List (String × JSON) → String
  | [] => ""
  | [(k, v)] => "\"" ++ escapeString k ++ "\":" ++ jsonStringify v
  | (k, v) :: fs => "\"" ++ escapeString k ++ "\":" ++ jsonStringify v ++ "," ++ jsonStringifyFields fs

end

/-- A value passed as the `key` or `args` parameter of a cache operation:
`undefined` (parameter omitted), a string, an array, or a function (carried
as its textual representation `String(key)`).  Other falsy JavaScript
values (`0`, `false`, `null`) are never used as keys by the library and
are outside the model. -/
inductive KeyArg where
  | undef
  | str (s : String)
  | arr (elems : List JSON)
  | func (srcText : String)
deriving DecidableEq, Inhabited

/-- Leading and trailing whitespace removal (`String.prototype.trim`,
written over the character list so it reduces in the kernel). -/
def jsTrim (s : String) : String :=
  ⟨((s.data.dropWhile Char.isWhitespace).reverse.dropWhile Char.isWhitespace).reverse⟩

/-- First line of a function's textual representation, trimmed
(`String(key).split("\n")[0].trim()`). -/
def firstLineTrim (srcText : String) : String :=
  jsTrim ⟨srcText.data.takeWhile (fun c => c != '\n')⟩

namespace Cache

/-- `Cache.formatKey`: falsy input (here: `undefined`, the empty string)
passes through unchanged; a function is reduced to the trimmed first line
of its textual representation; the result is JSON-encoded.  `none` models
the `undefined` passthrough; `some s` is the string the call evaluates to. -/
def formatKey : KeyArg → Option String
  | .undef => none
  | .str s => if s = "" then some "" else some (jsonStringify (.str s))
  | .arr elems => some (jsonStringify (.arr elems))
  | .func srcText => some (jsonStringify (.str (firstLineTrim srcText)))

end Cache

/-!
## JavaScript objects as insertion-ordered association lists

`alGet`/`alSet`/`alDel`/`alHas` model property read, write, `delete` and
`hasOwnProperty` on plain objects: a write to an existing key keeps its
position, a write to a fresh key appends it, `delete` removes it.
-/
/-- Property read (`m[k]`, `undefined` when absent). -/
def alGet {A : Type} (m : List (String × A)) (k : String) : Option A :=
  (m.find? (fun p => p.1 == k)).map (fun p => p.2)

/-- `Object.prototype.hasOwnProperty.call(m, k)`. -/
def alHas {A : Type} (m : List (String × A)) (k : String) : Bool :=
  m.any (fun p => p.1 == k)

/-- Property write (`m[k] = v`): update in place or append. -/
def alSet {A : Type} (m : List (String × A)) (k : String) (v : A) : List (String × A) :=
  if alHas m k then m.map (fun p => if p.1 == k then (k, v) else p) else m ++ [(k, v)]

/-- Property removal (`delete m[k]`). -/
def alDel {A : Type} (m : List (String × A)) (k : String) : List (String × A) :=
  m.filter (fun p => !(p.1 == k))

/-!
## The Cache store

`Cache` carries the two-level `data` mapping (formatted key string →
formatted args string → record) and the store options.  Timestamps
(`new Date().getTime()`) are finite millisecond values and are passed to
each operation as an explicit `now : ℚ` parameter; stat samples are
`JSNum` values.  A record's `data` payload is `Option JSON`, `none`
standing for the JavaScript `undefined`.  The `JSON.stringify`-based
payload comparison in `set` is modelled by structural equality of
`Option JSON`, which coincides with equality of serialized forms on
JSON-representable payloads.
-/
/-- One cache record: `{data, set, changed, used, age_max?}`. -/
structure CacheRecord where
  data : Option JSON
  set : ℚ
  changed : StatLike
  used : StatLike
  age_max : Option ℚ
deriving DecidableEq, Inhabited

/-- The sub-map of one key: formatted args string → record. -/
abbrev CacheSub := List (String × CacheRecord)

/-- The whole store mapping: formatted key string → sub-map. -/
abbrev CacheData := List (String × CacheSub)

/-- Store options (`age_max` is the only recognized key). -/
structure CacheOptions where
  age_max : ℚ
deriving DecidableEq, Inhabited

/-- `DEFAULT_OPTIONS`: `age_max` of 600000 ms (10 minutes). -/
def DEFAULT_OPTIONS : CacheOptions := ⟨600000⟩

/-- The cache store. -/
structure Cache where
  options : CacheOptions
  data : CacheData
deriving DecidableEq, Inhabited

/-- Record lookup at a (formatted key, formatted args) pair. -/
def recLookup (d : CacheData) (k a : String) : Option CacheRecord :=
  match alGet d k with
  | some sub => alGet sub a
  | none => none

/-- The TTL applied to a record: `cache.age_max || this.options.age_max`.
JavaScript `||` falls back on every falsy value, so a present but zero
`age_max` is ignored in favour of the store-wide default (NaN, the other
falsy number, is outside this ℚ-valued field). -/
def effAge (r : CacheRecord) (optAge : ℚ) : ℚ :=
  match r.age_max with
  | some a => if a = 0 then optAge else a
  | none => optAge

namespace Cache

/-- The string a key/args value is looked up under by `inspect`/`get`:
strings are used as-is (`typeof key !== "string"` guards the formatting),
anything else goes through `formatKey`; an `undefined` result indexes the
object as the string "undefined" (JavaScript property-key coercion). -/
def inspectKey : KeyArg → String
  | .str s => s
  | .undef => (formatKey .undef).getD "undefined"
  | .arr elems => (formatKey (.arr elems)).getD "undefined"
  | .func srcText => (formatKey (.func srcText)).getD "undefined"

/-- The string a key/args value is stored under by `set`/`unset`: always
passed through `formatKey` (strings included, unlike `inspectKey`); an
`undefined` result indexes the object as the string "undefined". -/
def setKey (x : KeyArg) : String := (formatKey x).getD "undefined"

/-- `set(key, data, args)`: no-op returning `undefined` when `data` is
`undefined`; otherwise formats key and args, creates the key sub-map and
the record if absent, appends to `changed` when the payload differs from
the stored one (upgrading `changed` from compact form first), and
unconditionally overwrites `data` and `set`.  Returns the pair (updated
store, returned value). -/
def set (c : Cache) (key : KeyArg) (data : Option JSON) (args : KeyArg) (now : ℚ) :
    Cache × Option JSON :=
  match data with
  | none => (c, none)
  | some d =>
    let k := setKey key
    let d1 := if alHas c.data k then c.data else alSet c.data k ([] : CacheSub)
    let a := setKey args
    let sub1 := (alGet d1 k).getD []
    let d2 :=
      if alHas sub1 a then d1
      else alSet d1 k (alSet sub1 a
        { data := some d, set := now, changed := .full ⟨[]⟩, used := .full ⟨[]⟩, age_max := none })
    let sub2 := (alGet d2 k).getD []
    let r := (alGet sub2 a).getD default
    let r1 :=
      if (some d : Option JSON) = r.data then r
      else
        let st := Stat.fromCompact r.changed
        let st1 := st.add [jsSub (.fin now) (st.getLast (.fin now))]
        { r with changed := .full st1 }
    let r2 := { r1 with data := some d, set := now }
    ({ c with data := alSet d2 k (alSet sub2 a r2) }, some d)

/-- `inspect(key, args)`: structural lookup of the raw record, without any
TTL check. -/
def inspect (c : Cache) (key args : KeyArg) : Option CacheRecord :=
  let k := inspectKey key
  if alHas c.data k then
    let a := inspectKey args
    let sub := (alGet c.data k).getD []
    if alHas sub a then alGet sub a else none
  else none

/-- `get(key, args)`: `inspect`, then the freshness test
`time_now - cache.set <= (cache.age_max || this.options.age_max)`.  On a
fresh hit the record's `used` stat is upgraded from compact form and the
gap since the previous hit (falling back to the write time) is appended —
a mutation through the record object reference, hence the store update —
and the stored payload is returned; otherwise `undefined` and the store
unchanged. -/
def get (c : Cache) (key args : KeyArg) (now : ℚ) : Option JSON × Cache :=
  match inspect c key args with
  | none => (none, c)
  | some r =>
    if qSub now r.set ≤ effAge r c.options.age_max then
      let st := Stat.fromCompact r.used
      let st1 := st.add [jsSub (.fin now) (st.getLast (.fin r.set))]
      let r1 := { r with used := .full st1 }
      let k := inspectKey key
      let a := inspectKey args
      (r.data, { c with data := alSet c.data k (alSet ((alGet c.data k).getD []) a r1) })
    else (none, c)

/-- The error raised by `delete this.data[key][args]` when
`this.data[key]` is `undefined`. -/
def unsetTypeError : String := "TypeError: Cannot convert undefined or null to object"

/-- The branch of `unset` taken when the formatted key is defined:
`args` omitted deletes the whole key sub-map, otherwise
`delete this.data[key][args]` (a TypeError when the key is absent). -/
def unsetKeyed (d : CacheData) (k : String) (args : Option String) : Except String CacheData :=
  match args with
  | none => Except.ok (alDel d k)
  | some a =>
    match alGet d k with
    | none => Except.error unsetTypeError
    | some sub => Except.ok (alSet d k (alDel sub a))

/-- `unset(key, args)`: formats both, clears the store when both are
`undefined`; when only the key is `undefined`, re-enters `unset` for every
key of the store — passing the stored key string and the already-formatted
args string, both of which are then formatted a second time by the
re-entered call.  Exceptions abort the iteration. -/
def unset (c : Cache) (key args : KeyArg) : Except String Cache :=
  match formatKey key with
  | some k => do
    let d1 ← unsetKeyed c.data k (formatKey args)
    Except.ok { c with data := d1 }
  | none =>
    match formatKey args with
    | none => Except.ok { c with data := [] }
    | some a => do
      let d1 ← (c.data.map (fun p => p.1)).foldlM (fun acc k =>
        unsetKeyed acc ((formatKey (.str k)).getD "undefined") (formatKey (.str a))) c.data
      Except.ok { c with data := d1 }

/-- The body of `clean`'s inner loop, for one `(key, args)` pair: call
`get` (with its `used` side effect on the store) and, when it reports
`undefined`, `delete this.data[key][args]` from the resulting store. -/
def cleanArgsBody (now : ℚ) (k : String) (acc : Cache) (a : String) : Cache :=
  let res := get acc (.str k) (.str a) now
  if res.1 = none then
    { res.2 with data := alSet res.2.data k (alDel ((alGet res.2.data k).getD []) a) }
  else res.2

/-- The body of `clean`'s outer loop, for one key: sweep every args of the
key's current sub-map (the snapshot taken when the key's turn comes), then
delete the key if its sub-map has become empty. -/
def cleanKeyBody (now : ℚ) (acc : Cache) (k : String) : Cache :=
  let acc1 := (((alGet acc.data k).getD []).map (fun q => q.1)).foldl (cleanArgsBody now k) acc
  if ((alGet acc1.data k).getD []) = [] then { acc1 with data := alDel acc1.data k }
  else acc1

/-- `clean()`: for every key of the store (the key list is the snapshot
taken at entry), run the per-key sweep. -/
def clean (c : Cache) (now : ℚ) : Cache :=
  (c.data.map (fun p => p.1)).foldl (cleanKeyBody now) c

/-- The error raised by `cache_data[key][args].set > data[key][args].set`
when `data[key][args]` is `undefined`. -/
def mergeTypeError : String := "TypeError: Cannot read properties of undefined (reading set)"

/-- `Cache.fromMerge(caches, options)`: folds the input stores in order
(a `Cache` input contributes its `.data`); for every key of every input,
ensures the key exists in the accumulator, then for every args of the
input's sub-map compares `cache_data[key][args].set > data[key][args].set`
and keeps the newer record.  The read of `data[key][args].set` throws when
the accumulator holds no record there yet.  The source also installs a
placeholder `{changed: new Stat(), data: undefined, set: 0, used: new
Stat()}` into the *input* when the input lacks the args key — a branch
that can never fire since args ranges over the input sub-map's own keys;
it is modelled by the fallback record of the input read. -/
def fromMerge (caches : List CacheData) (options : CacheOptions) : Except String Cache := do
  let data ← caches.foldlM (fun acc cd =>
    cd.foldlM (fun acc1 p =>
      let key := p.1
      let acc2 := if alHas acc1 key then acc1 else alSet acc1 key ([] : CacheSub)
      (p.2.map (fun q => q.1)).foldlM (fun acc3 args =>
        let src :=
          match alGet ((alGet cd key).getD []) args with
          | some r => r
          | none =>
            { data := none, set := 0, changed := .full ⟨[]⟩, used := .full ⟨[]⟩, age_max := none }
        match alGet ((alGet acc3 key).getD []) args with
        | none => Except.error mergeTypeError
        | some dst =>
          Except.ok (if dst.set < src.set then
            alSet acc3 key (alSet ((alGet acc3 key).getD []) args src)
          else acc3)) acc2) acc) ([] : CacheData)
  Except.ok { options := options, data := data }

end Cache

/-!
## Constructing a store from raw data (`fromDataSync`, prior revision)

`fromData`/`fromDataSync` dispatch on the source value: a `Buffer` is
inflated and re-dispatched as a string; a plain object (not an array, not
`null`) is used as the store data directly; a string is `JSON.parse`d,
falling back to `{}` when parsing throws; anything else throws
`"Unable to create from data"`.  `JSON.parse` and `inflateSync` are
runtime collaborators and are passed in as functions (`parse s = none`
models a parse exception; an `Except.error` from `inflate` models an
`inflateSync` exception, which the sync variant propagates).
-/
/-- A value passed to `fromDataSync`: a byte `Buffer`, a JSON-representable
value, or `undefined`. -/
inductive SourceVal where
  | buf (bytes : List Nat)
  | val (v : JSON)
  | undef
deriving DecidableEq, Inhabited

/-- The `fromDataSync` error message. -/
def unableToCreate : String := "Unable to create from data"

namespace Cache

/-- The non-buffer dispatch of `fromDataSync` (`none` models `undefined`).
The result is the `data` value the `Cache` is constructed with. -/
def fromDataSyncVal (parse : String → Option JSON) : Option JSON → Except String JSON
  | some (.obj fields) => Except.ok (.obj fields)
  | some (.str s) =>
    Except.ok (match parse s with
      | some v => v
      | none => .obj [])
  | _ => Except.error unableToCreate

/-- `fromDataSync(data, options)`: inflate-and-recurse for buffers (the
recursive call's argument is a string, so it resolves in the string
branch), otherwise the value dispatch.  Returns the `data` value the
`Cache` is constructed with. -/
def fromDataSync (inflate : List Nat → Except String String)
    (parse : String → Option JSON) : SourceVal → Except String JSON
  | .buf bytes =>
    match inflate bytes with
    | Except.ok s => fromDataSyncVal parse (some (.str s))
    | Except.error e => Except.error e
  | .val v => fromDataSyncVal parse (some v)
  | .undef => fromDataSyncVal parse none

end Cache

/-!
## Concrete fixtures used by individual claims
-/
/-- An empty full Stat, as `new Stat()` produces. -/
def emptyStat : StatLike := .full ⟨[]⟩

/-- C1 counterexample fixture: one record with a present but zero
`age_max`, written at time 0. -/
def c1store : Cache :=
  { options := ⟨600000⟩
    data := [("k", [("a",
      { data := some (.num 1), set := 0, changed := emptyStat, used := emptyStat,
        age_max := some 0 })])] }

/-- C1 witness fixture: a record with no per-record TTL, written at time 0. -/
def c1wrec : CacheRecord :=
  { data := some (.num 2), set := 0, changed := emptyStat, used := emptyStat, age_max := none }

/-- C1 witness store. -/
def c1wstore : Cache := { options := ⟨600000⟩, data := [("k", [("a", c1wrec)])] }

/-- C2 fixture: input store A with `(k, [])` written at time 100. -/
def mergeA : CacheData :=
  [("\"k\"", [("[]",
    { data := some (.num 1), set := 100, changed := emptyStat, used := emptyStat,
      age_max := none })])]

/-- C2 fixture: input store B with `(k, [])` written at time 200. -/
def mergeB : CacheData :=
  [("\"k\"", [("[]",
    { data := some (.num 2), set := 200, changed := emptyStat, used := emptyStat,
      age_max := none })])]

/-- C3 fixture: four samples with pairwise distinct min 1, max 5, last 3. -/
def c3stat : Stat := ⟨[.fin 1, .fin 5, .fin 2, .fin 3]⟩

/-- C6 fixture: one key holding two args-signatures, among them the one
`unset(undefined, ["a"])` is asked to remove. -/
def unsetStore : Cache :=
  { options := ⟨600000⟩
    data := [("\"k\"",
      [("[\"a\"]",
        { data := some (.num 1), set := 0, changed := emptyStat, used := emptyStat,
          age_max := none }),
       ("[\"b\"]",
        { data := some (.num 2), set := 0, changed := emptyStat, used := emptyStat,
          age_max := none })])] }

/-- Dispatch test used by C7: is the value a plain object or a string
(the two source types `fromData` accepts besides buffers)? -/
def isObjOrStr : JSON → Bool
  | .obj _ => true
  | .str _ => true
  | _ => false

/-- C4 witness fixture: an existing record with payload 7 written at 0. -/
def c4rec : CacheRecord :=
  { data := some (.num 7), set := 0, changed := .full ⟨[.fin 3]⟩, used := emptyStat,
    age_max := none }

/-- C4 witness store. -/
def c4store : Cache := { options := ⟨600000⟩, data := [("\"k\"", [("[]", c4rec)])] }

/-!
## C9: max/min of an empty Stat

Non-NaN JavaScript numbers order-embed into `WithBot (WithTop ℚ)`
(`-Infinity` to `⊥`, `Infinity` to `⊤`); the fold lemmas below transport
`Math.max`/`Math.min` over the spread of the sample list to `max`/`min`
in that linear order.
-/
/-- Order embedding of non-NaN numbers into `WithBot (WithTop ℚ)` (the
value at `nan` is junk; every use is guarded by `≠ nan`). -/
def JSNum.toE : JSNum → WithBot (WithTop ℚ)
  | .fin q => ((q : WithTop ℚ) : WithBot (WithTop ℚ))
  | .posInf => ((⊤ : WithTop ℚ) : WithBot (WithTop ℚ))
  | .negInf => ⊥
  | .nan => ⊥

/-!
## Characterizing the `clean` sweep
-/
namespace Cache

/-- The `used`-stat update `get` performs on a fresh hit (a mutation
through the record object reference). -/
def touchUsed (r : CacheRecord) (now : ℚ) : CacheRecord :=
  { r with used := .full ((Stat.fromCompact r.used).add
      [jsSub (.fin now) ((Stat.fromCompact r.used).getLast (.fin r.set))]) }

/-- Does `get` keep (and return) this record at time `now`: fresh by the
`||`-TTL test and carrying a defined payload. -/
def keepB (optAge now : ℚ) (r : CacheRecord) : Bool :=
  decide (qSub now r.set ≤ effAge r optAge) && r.data.isSome

/-- The effect of one inner `clean` iteration on the swept key's sub-map:
a missing or stale or undefined-payload record is deleted (a fresh one is
touched first, exactly as the source's `get`-then-`delete` sequence does),
a kept record is touched. -/
def subStep (optAge now : ℚ) (s : CacheSub) (a : String) : CacheSub :=
  match alGet s a with
  | none => alDel s a
  | some r =>
    if qSub now r.set ≤ effAge r optAge then
      if r.data = none then alDel (alSet s a (touchUsed r now)) a
      else alSet s a (touchUsed r now)
    else alDel s a

/-- The sub-map `clean` leaves for one key: kept records, touched, in
order. -/
def subCleanIdeal (optAge now : ℚ) (s : CacheSub) : CacheSub :=
  s.filterMap (fun q => if keepB optAge now q.2 then some (q.1, touchUsed q.2 now) else none)

end Cache

/-- Does every record of the store carry a defined payload?  (True of
every store reachable through `set`, which never writes `undefined`.) -/
def dataDefined (d : CacheData) : Bool :=
  d.all (fun p => p.2.all (fun q => q.2.data.isSome))

/-- The observable description of `get` at raw string key/args: lookup,
`||`-TTL test, and on a fresh hit the touched store and stored payload. -/
def Cache.getSpec (c : Cache) (k a : String) (now : ℚ) : Option JSON × Cache :=
  match recLookup c.data k a with
  | none => (none, c)
  | some r =>
    if qSub now r.set ≤ effAge r c.options.age_max then
      (r.data, { c with data := alSet c.data k (alSet ((alGet c.data k).getD []) a (Cache.touchUsed r now)) })
    else (none, c)

/-- C5 witness fixture: a fresh record (age 100 within TTL 1000). -/
def c5recA : CacheRecord :=
  { data := some (.num 1), set := 400, changed := emptyStat, used := emptyStat, age_max := none }

/-- C5 witness fixture: a stale record (age 1100 beyond TTL 1000). -/
def c5recB : CacheRecord :=
  { data := some (.num 2), set := -600, changed := emptyStat, used := emptyStat, age_max := none }

/-- C5 witness store. -/
def c5store : Cache := { options := ⟨1000⟩, data := [("k", [("a", c5recA), ("b", c5recB)])] }

/-!
## Theorems
-/

theorem qAdd_eq (a b : ℚ) : qAdd a b = a + b := (Rat.add_def' a b).symm

theorem qSub_eq (a b : ℚ) : qSub a b = a - b := (Rat.sub_def' a b).symm

theorem qMul_eq (a b : ℚ) : qMul a b = a * b := by
  rw [Rat.mul_def, Rat.normalize_eq_mkRat]; rfl

theorem qDiv_eq (a b : ℚ) : qDiv a b = a / b := (Rat.div_def' a b).symm

theorem alGet_cons {A : Type} (p : String × A) (t : List (String × A)) (k : String) :
    alGet (p :: t) k = if p.1 = k then some p.2 else alGet t k := by
  by_cases hp : p.1 = k
  · simp [alGet, List.find?, hp]
  · simp only [alGet, List.find?]
    rw [show (p.1 == k) = false from by simpa using hp, if_neg hp]

theorem alHas_eq_isSome {A : Type} (m : List (String × A)) (k : String) :
    alHas m k = (alGet m k).isSome := by
  induction m with
  | nil => rfl
  | cons p t ih =>
    rw [alGet_cons, show alHas (p :: t) k = ((p.1 == k) || alHas t k) from rfl]
    by_cases hp : p.1 = k
    · simp [hp]
    · rw [show (p.1 == k) = false from by simpa using hp, if_neg hp]
      simpa using ih

theorem alGet_append {A : Type} (m₁ m₂ : List (String × A)) (k : String) :
    alGet (m₁ ++ m₂) k =
      match alGet m₁ k with
      | some v => some v
      | none => alGet m₂ k := by
  induction m₁ with
  | nil => simp [alGet]
  | cons p t ih =>
    rw [List.cons_append, alGet_cons, alGet_cons]
    by_cases hp : p.1 = k <;> simp [hp, ih]

theorem alGet_map_update {A : Type} (t : List (String × A)) (k kq : String) (v : A) :
    alGet (t.map (fun p => if p.1 == k then (k, v) else p)) kq
      = if kq = k then (alGet t k).map (fun _ => v) else alGet t kq := by
  induction t with
  | nil => by_cases hq : kq = k <;> simp [alGet, hq]
  | cons p t ih =>
    simp only [List.map_cons]
    by_cases hp : p.1 = k
    · rw [show (if p.1 == k then (k, v) else p) = (k, v) from by simp [hp]]
      rw [alGet_cons, alGet_cons]
      by_cases hq : kq = k
      · subst hq; simp [hp]
      · rw [if_neg (fun h => hq h.symm), ih, if_neg hq, if_neg hq, alGet_cons,
          if_neg (fun h : p.1 = kq => hq (h.symm.trans hp))]
    · rw [show (if p.1 == k then (k, v) else p) = p from by simp [hp]]
      rw [alGet_cons]
      by_cases hq : kq = k
      · subst hq
        rw [if_neg (fun h : p.1 = kq => hp h), ih, if_pos rfl, if_pos rfl,
          alGet_cons, if_neg hp]
      · rw [if_neg hq, alGet_cons]
        by_cases hpq : p.1 = kq
        · rw [if_pos hpq, if_pos hpq]
        · rw [if_neg hpq, if_neg hpq, ih, if_neg hq]

theorem alGet_alSet {A : Type} (m : List (String × A)) (k kq : String) (v : A) :
    alGet (alSet m k v) kq = if kq = k then some v else alGet m kq := by
  unfold alSet
  by_cases hmem : alHas m k
  · rw [if_pos hmem, alGet_map_update]
    by_cases hq : kq = k
    · subst hq
      rw [if_pos rfl, if_pos rfl]
      have hs := alHas_eq_isSome m kq
      rw [show alHas m kq = true from hmem] at hs
      cases halg : alGet m kq with
      | none => rw [halg] at hs; simp at hs
      | some w => simp
    · rw [if_neg hq, if_neg hq]
  · rw [if_neg hmem, alGet_append]
    have hnone : alGet m k = none := by
      have hs := alHas_eq_isSome m k
      rw [show alHas m k = false from by simpa using hmem] at hs
      cases halg : alGet m k with
      | none => rfl
      | some w => rw [halg] at hs; simp at hs
    by_cases hq : kq = k
    · subst hq; rw [hnone]; simp [alGet_cons]
    · cases halg : alGet m kq with
      | none =>
        rw [alGet_cons, if_neg (fun h : k = kq => hq h.symm), if_neg hq]
        simp [alGet]
      | some w => rw [if_neg hq]

theorem alGet_alDel {A : Type} (m : List (String × A)) (k kq : String) :
    alGet (alDel m k) kq = if kq = k then none else alGet m kq := by
  induction m with
  | nil => by_cases hq : kq = k <;> simp [alGet, alDel, hq]
  | cons p t ih =>
    by_cases hp : p.1 = k
    · rw [show alDel (p :: t) k = alDel t k from by simp [alDel, hp], ih]
      by_cases hq : kq = k
      · rw [if_pos hq, if_pos hq]
      · rw [if_neg hq, if_neg hq, alGet_cons,
          if_neg (fun h : p.1 = kq => hq (hp ▸ h).symm)]
    · rw [show alDel (p :: t) k = p :: alDel t k from by simp [alDel, hp],
        alGet_cons, alGet_cons]
      by_cases hq : kq = k
      · subst hq
        rw [if_pos rfl, if_neg (fun h : p.1 = kq => hp h), ih, if_pos rfl]
      · rw [if_neg hq, ih, if_neg hq]

theorem alHas_alSet {A : Type} (m : List (String × A)) (k kq : String) (v : A) :
    alHas (alSet m k v) kq = (if kq = k then true else alHas m kq) := by
  rw [alHas_eq_isSome, alGet_alSet, alHas_eq_isSome]
  by_cases hq : kq = k <;> simp [hq]

theorem alHas_alDel {A : Type} (m : List (String × A)) (k kq : String) :
    alHas (alDel m k) kq = (if kq = k then false else alHas m kq) := by
  rw [alHas_eq_isSome, alGet_alDel, alHas_eq_isSome]
  by_cases hq : kq = k <;> simp [hq]

/-!
## Claim theorems
-/
/-- **C8.** For every store state, `set(key, undefined, args)` is a no-op:
the store is left entirely unchanged (no record created, no data or set
timestamp overwritten, no changed/used Stat updated) and the call returns
`undefined`. -/
theorem set_undefined_noop (c : Cache) (key args : KeyArg) (now : ℚ) :
    Cache.set c key none args now = (c, none) := rfl

/-- **C1 (amended).** For every stored record, `get` returns the stored
payload exactly when `now - record.set <= age_max` (boundary inclusive)
and `undefined` otherwise, where `age_max` is the record's own `age_max`
when present *and nonzero* (JavaScript `||`), otherwise the store-wide
`options.age_max` — see `effAge`. -/
theorem get_freshness (c : Cache) (k a : String) (r : CacheRecord) (now : ℚ)
    (hr : recLookup c.data k a = some r) :
    (Cache.get c (.str k) (.str a) now).1 =
      (if qSub now r.set ≤ effAge r c.options.age_max then r.data else none) := by
  have hin : Cache.inspect c (.str k) (.str a) = some r := by
    unfold recLookup at hr
    cases halg : alGet c.data k with
    | none => rw [halg] at hr; exact absurd hr (by simp)
    | some sub =>
      rw [halg] at hr
      have hr2 : alGet sub a = some r := hr
      simp only [Cache.inspect, Cache.inspectKey, alHas_eq_isSome, halg, Option.getD_some,
        Option.isSome_some, if_true, hr2]
  unfold Cache.get
  rw [hin]
  by_cases hf : qSub now r.set ≤ effAge r c.options.age_max
  · simp only [hf, if_true, if_pos hf]
  · simp only [hf, if_false, if_neg hf]

/-- **C1 witness** for `get_freshness`, at a concrete fresh record. -/
theorem get_freshness_witness :
    recLookup c1wstore.data "k" "a" = some c1wrec ∧
    (Cache.get c1wstore (.str "k") (.str "a") 5).1 =
      (if qSub 5 c1wrec.set ≤ effAge c1wrec c1wstore.options.age_max then c1wrec.data else none) :=
  ⟨by decide, get_freshness c1wstore "k" "a" c1wrec 5 (by decide)⟩

/-- **C1 counterexample.** The claim reads `age_max` with `??` semantics:
for the record of `c1store` (whose own `age_max` is present and equals 0)
at `now = 5 > 0 = age_max`, the claim requires "not found"; the code uses
`||`, ignores the zero TTL, and returns the stored payload. -/
theorem get_age_max_zero_counterexample :
    (recLookup c1store.data "k" "a").map (fun r => r.age_max) = some (some 0) ∧
    qSub 5 0 > 0 ∧
    (Cache.get c1store (.str "k") (.str "a") 5).1 = some (.num 1) := by
  refine ⟨by decide, by decide, by decide⟩

/-- **C2.** `fromMerge([A, B])`, where A holds `(k, [])` with `set = 100`
and B holds the same pair with `set = 200`, does not produce a merged
store at all: the very first record comparison reads
`data[key][args].set` from the still-empty accumulator sub-map and throws
a TypeError. -/
theorem fromMerge_throws :
    Cache.fromMerge [mergeA, mergeB] DEFAULT_OPTIONS = Except.error Cache.mergeTypeError := rfl

/-- **C3.** The compact/expand round trip is not the identity on compact
forms: for the Stat `[1, 5, 2, 3]` (min 1, max 5, last 3 pairwise
distinct), the reconstruction fills `count - 3` slots with
`(sum - min - max) / (count - 3)`, forgetting that `last` was also
retained verbatim, so the reconstructed samples `[5, 5, 1, 3]` sum to
`sum + last = 14` instead of 11 and `toCompact` differs from the
original. -/
theorem stat_roundtrip_sum_bug :
    c3stat.getMin = .fin 1 ∧ c3stat.getMax = .fin 5 ∧ c3stat.getLast = .fin 3 ∧
    c3stat.toCompact.sum = .fin 11 ∧
    (Stat.fromCompact (.compact c3stat.toCompact)).values = [.fin 5, .fin 5, .fin 1, .fin 3] ∧
    (Stat.fromCompact (.compact c3stat.toCompact)).toCompact.sum = .fin 14 ∧
    (Stat.fromCompact (.compact c3stat.toCompact)).toCompact ≠ c3stat.toCompact := by
  refine ⟨by decide, by decide, by decide, by decide, by decide, by decide, by decide⟩

/-- **C6.** `unset(undefined, ["a"])` on a store containing the key
`"k"` (stored as its formatted string) with the args-signature `["a"]`
present does not remove that signature from the key: the per-key re-entry
formats the already-formatted key and args a second time, fails to find
the doubly-encoded key, and throws a TypeError. -/
theorem unset_allkeys_throws :
    alHas ((alGet unsetStore.data "\"k\"").getD []) "[\"a\"]" = true ∧
    Cache.unset unsetStore .undef (.arr [.str "a"]) = Except.error Cache.unsetTypeError := by
  refine ⟨by decide, by rfl⟩

/-- **C7.** Constructing a store from a string source that fails to parse
as JSON falls back to an empty store (`Except.ok` with empty data) rather
than propagating; constructing from a source that is neither a plain
object nor a string (nor a buffer) fails loudly with
"Unable to create from data". -/
theorem fromDataSync_spec (inflate : List Nat → Except String String)
    (parse : String → Option JSON) :
    (∀ s : String, parse s = none →
      Cache.fromDataSync inflate parse (.val (.str s)) = Except.ok (.obj [])) ∧
    (∀ v : JSON, isObjOrStr v = false →
      Cache.fromDataSync inflate parse (.val v) = Except.error unableToCreate) ∧
    Cache.fromDataSync inflate parse .undef = Except.error unableToCreate := by
  refine ⟨?_, ?_, rfl⟩
  · intro s h
    simp only [Cache.fromDataSync, Cache.fromDataSyncVal, h]
  · intro v hv
    cases v with
    | obj fields => simp [isObjOrStr] at hv
    | str s => simp [isObjOrStr] at hv
    | null => rfl
    | bool b => rfl
    | num q => rfl
    | arr elems => rfl

/-- **C7 witness** for `fromDataSync_spec`: a parser that always fails, a
string source, and a numeric source. -/
theorem fromDataSync_spec_witness :
    Cache.fromDataSync (fun _ => Except.error unableToCreate) (fun _ => none)
      (.val (.str "not json")) = Except.ok (.obj []) ∧
    Cache.fromDataSync (fun _ => Except.error unableToCreate) (fun _ => none)
      (.val (.num 5)) = Except.error unableToCreate :=
  ⟨(fromDataSync_spec (fun _ => Except.error unableToCreate) (fun _ => none)).1 "not json" rfl,
   (fromDataSync_spec (fun _ => Except.error unableToCreate) (fun _ => none)).2.1 (.num 5) rfl⟩

/-- Inserting a record at `(k, a)` makes it the record `recLookup` finds. -/
theorem recLookup_alSet (dd : CacheData) (k a : String) (sub : CacheSub) (v : CacheRecord) :
    recLookup (alSet dd k (alSet sub a v)) k a = some v := by
  unfold recLookup
  rw [alGet_alSet, if_pos rfl]
  show alGet (alSet sub a v) a = some v
  rw [alGet_alSet, if_pos rfl]

/-- **C4.** For every existing record and every call `set(key, data, args)`
with defined data: the record's `set` timestamp is updated to `now`
(and the payload overwritten), and whenever the new payload deep-equals
the stored payload (structural equality of the serialized form) the
record's `changed` Stat is left entirely unchanged. -/
theorem set_existing_record (c : Cache) (key args : KeyArg) (d : JSON) (now : ℚ)
    (r : CacheRecord)
    (hr : recLookup c.data (Cache.setKey key) (Cache.setKey args) = some r) :
    ∃ r2 : CacheRecord,
      recLookup ((Cache.set c key (some d) args now).1).data
          (Cache.setKey key) (Cache.setKey args) = some r2
        ∧ r2.set = now ∧ r2.data = some d
        ∧ (r.data = some d → r2.changed = r.changed) := by
  unfold recLookup at hr
  cases halg : alGet c.data (Cache.setKey key) with
  | none => rw [halg] at hr; exact absurd hr (by simp)
  | some sub =>
    rw [halg] at hr
    have hrec : alGet sub (Cache.setKey args) = some r := hr
    have hhask : alHas c.data (Cache.setKey key) = true := by
      rw [alHas_eq_isSome, halg]; rfl
    have hhasa : alHas sub (Cache.setKey args) = true := by
      rw [alHas_eq_isSome, hrec]; rfl
    simp only [Cache.set, hhask, if_true, halg, Option.getD_some, hhasa, hrec]
    refine ⟨{ (if (some d : Option JSON) = r.data then r
        else { r with changed := StatLike.full ((Stat.fromCompact r.changed).add
          [jsSub (.fin now) ((Stat.fromCompact r.changed).getLast (.fin now))]) })
        with data := some d, set := now }, ?_, rfl, rfl, ?_⟩
    · exact recLookup_alSet c.data (Cache.setKey key) (Cache.setKey args) sub _
    · intro hd
      rw [if_pos hd.symm]

/-- **C4 witness** for `set_existing_record`: re-writing the identical
payload 7 at time 50 over `c4rec`. -/
theorem set_existing_record_witness :
    recLookup c4store.data (Cache.setKey (.str "k")) (Cache.setKey (.arr [])) = some c4rec ∧
    ∃ r2 : CacheRecord,
      recLookup ((Cache.set c4store (.str "k") (some (.num 7)) (.arr []) 50).1).data
          (Cache.setKey (.str "k")) (Cache.setKey (.arr [])) = some r2
        ∧ r2.set = 50 ∧ r2.data = some (.num 7)
        ∧ (c4rec.data = some (.num 7) → r2.changed = c4rec.changed) :=
  ⟨by decide, set_existing_record c4store (.str "k") (.arr []) (.num 7) 50 c4rec (by decide)⟩

theorem jsLt_iff_toE {a b : JSNum} (ha : a ≠ .nan) (hb : b ≠ .nan) :
    jsLt a b = true ↔ JSNum.toE a < JSNum.toE b := by
  cases a <;> cases b <;>
    simp_all [jsLt, JSNum.toE, WithBot.coe_lt_coe, WithTop.coe_lt_coe,
      WithBot.bot_lt_coe, not_lt_bot, lt_irrefl, not_top_lt, WithBot.coe_top,
      lt_top_iff_ne_top, WithTop.coe_ne_top, bot_lt_top]

theorem jsMax_ne_nan {a b : JSNum} (ha : a ≠ .nan) (hb : b ≠ .nan) :
    jsMax a b ≠ .nan := by
  unfold jsMax
  rw [if_neg (by simp [ha, hb])]
  by_cases h : jsLt a b = true
  · rw [if_pos h]; exact hb
  · rw [if_neg h]; exact ha

theorem jsMin_ne_nan {a b : JSNum} (ha : a ≠ .nan) (hb : b ≠ .nan) :
    jsMin a b ≠ .nan := by
  unfold jsMin
  rw [if_neg (by simp [ha, hb])]
  by_cases h : jsLt b a = true
  · rw [if_pos h]; exact hb
  · rw [if_neg h]; exact ha

theorem toE_jsMax {a b : JSNum} (ha : a ≠ .nan) (hb : b ≠ .nan) :
    JSNum.toE (jsMax a b) = max (JSNum.toE a) (JSNum.toE b) := by
  unfold jsMax
  rw [if_neg (by simp [ha, hb])]
  by_cases h : jsLt a b = true
  · rw [if_pos h, max_eq_right (le_of_lt ((jsLt_iff_toE ha hb).1 h))]
  · rw [if_neg h,
      max_eq_left (not_lt.1 (fun hlt => h ((jsLt_iff_toE ha hb).2 hlt)))]

theorem toE_jsMin {a b : JSNum} (ha : a ≠ .nan) (hb : b ≠ .nan) :
    JSNum.toE (jsMin a b) = min (JSNum.toE a) (JSNum.toE b) := by
  unfold jsMin
  rw [if_neg (by simp [ha, hb])]
  by_cases h : jsLt b a = true
  · rw [if_pos h, min_eq_right (le_of_lt ((jsLt_iff_toE hb ha).1 h))]
  · rw [if_neg h,
      min_eq_left (not_lt.1 (fun hlt => h ((jsLt_iff_toE hb ha).2 hlt)))]

theorem foldl_max_bounds {A : Type} [LinearOrder A] (l : List A) (acc : A) :
    acc ≤ l.foldl max acc ∧ ∀ x ∈ l, x ≤ l.foldl max acc := by
  induction l generalizing acc with
  | nil => exact ⟨le_refl _, by simp⟩
  | cons a t ih =>
    obtain ⟨h1, h2⟩ := ih (max acc a)
    refine ⟨le_trans (le_max_left _ _) h1, ?_⟩
    intro x hx
    rcases List.mem_cons.1 hx with rfl | hx
    · exact le_trans (le_max_right _ _) h1
    · exact h2 x hx

theorem foldl_min_bounds {A : Type} [LinearOrder A] (l : List A) (acc : A) :
    l.foldl min acc ≤ acc ∧ ∀ x ∈ l, l.foldl min acc ≤ x := by
  induction l generalizing acc with
  | nil => exact ⟨le_refl _, by simp⟩
  | cons a t ih =>
    obtain ⟨h1, h2⟩ := ih (min acc a)
    refine ⟨le_trans h1 (min_le_left _ _), ?_⟩
    intro x hx
    rcases List.mem_cons.1 hx with rfl | hx
    · exact le_trans h1 (min_le_right _ _)
    · exact h2 x hx

theorem toE_foldl_jsMax (l : List JSNum) (acc : JSNum) (hacc : acc ≠ .nan)
    (hl : ∀ x ∈ l, x ≠ .nan) :
    JSNum.toE (l.foldl jsMax acc) = (l.map JSNum.toE).foldl max (JSNum.toE acc)
      ∧ l.foldl jsMax acc ≠ .nan := by
  induction l generalizing acc with
  | nil => exact ⟨rfl, hacc⟩
  | cons a t ih =>
    have ha := hl a (by simp)
    obtain ⟨e1, e2⟩ := ih (jsMax acc a) (jsMax_ne_nan hacc ha)
      (fun x hx => hl x (by simp [hx]))
    refine ⟨?_, e2⟩
    rw [List.foldl_cons, e1, toE_jsMax hacc ha, List.map_cons, List.foldl_cons]

theorem toE_foldl_jsMin (l : List JSNum) (acc : JSNum) (hacc : acc ≠ .nan)
    (hl : ∀ x ∈ l, x ≠ .nan) :
    JSNum.toE (l.foldl jsMin acc) = (l.map JSNum.toE).foldl min (JSNum.toE acc)
      ∧ l.foldl jsMin acc ≠ .nan := by
  induction l generalizing acc with
  | nil => exact ⟨rfl, hacc⟩
  | cons a t ih =>
    have ha := hl a (by simp)
    obtain ⟨e1, e2⟩ := ih (jsMin acc a) (jsMin_ne_nan hacc ha)
      (fun x hx => hl x (by simp [hx]))
    refine ⟨?_, e2⟩
    rw [List.foldl_cons, e1, toE_jsMin hacc ha, List.map_cons, List.foldl_cons]

theorem foldl_jsMax_nan (l : List JSNum) (acc : JSNum)
    (h : JSNum.nan ∈ l ∨ acc = .nan) : l.foldl jsMax acc = .nan := by
  induction l generalizing acc with
  | nil =>
    rcases h with h | h
    · simp at h
    · exact h
  | cons a t ih =>
    rw [List.foldl_cons]
    apply ih
    rcases h with h | h
    · rcases List.mem_cons.1 h with rfl | h
      · right; simp [jsMax]
      · left; exact h
    · right; simp [jsMax, h]

theorem foldl_jsMin_nan (l : List JSNum) (acc : JSNum)
    (h : JSNum.nan ∈ l ∨ acc = .nan) : l.foldl jsMin acc = .nan := by
  induction l generalizing acc with
  | nil =>
    rcases h with h | h
    · simp at h
    · exact h
  | cons a t ih =>
    rw [List.foldl_cons]
    apply ih
    rcases h with h | h
    · rcases List.mem_cons.1 h with rfl | h
      · right; simp [jsMin]
      · left; exact h
    · right; simp [jsMin, h]

/-- **C9.** For an empty Stat, `getMax()` returns `-Infinity` and
`getMin()` returns `+Infinity` (the identity elements of max/min over no
values, and what `Math.max()`/`Math.min()` of an empty spread produce);
consequently `getMax() < getMin()` holds exactly when the Stat is empty.
Both calls are total — no error is raised. -/
theorem stat_empty_max_min :
    (Stat.mk []).getMax = JSNum.negInf ∧ (Stat.mk []).getMin = JSNum.posInf ∧
    ∀ s : Stat, (jsLt s.getMax s.getMin = true ↔ s.values = []) := by
  refine ⟨rfl, rfl, ?_⟩
  intro s
  constructor
  · intro h
    by_contra hne
    by_cases hnan : JSNum.nan ∈ s.values
    · rw [show s.getMax = .nan from foldl_jsMax_nan s.values .negInf (Or.inl hnan)] at h
      simp [jsLt] at h
    · have hl : ∀ x ∈ s.values, x ≠ JSNum.nan := fun x hx hxe => hnan (hxe ▸ hx)
      obtain ⟨emax, hmaxn⟩ := toE_foldl_jsMax s.values .negInf (by simp) hl
      obtain ⟨emin, hminn⟩ := toE_foldl_jsMin s.values .posInf (by simp) hl
      cases hv : s.values with
      | nil => exact hne hv
      | cons a t =>
        have hlt := (jsLt_iff_toE hmaxn hminn).1 h
        rw [emax, emin] at hlt
        have hmem : JSNum.toE a ∈ s.values.map JSNum.toE := by
          rw [hv]; exact List.mem_cons_self _ _
        have h1 := (foldl_max_bounds (s.values.map JSNum.toE) (JSNum.toE .negInf)).2 _ hmem
        have h2 := (foldl_min_bounds (s.values.map JSNum.toE) (JSNum.toE .posInf)).2 _ hmem
        exact absurd hlt (not_lt.2 (le_trans h2 h1))
  · intro h
    have hs : s = ⟨[]⟩ := by cases s with | mk v => rw [show v = [] from h]
    rw [hs]
    rfl

/-- **C9 witness** for `stat_empty_max_min`, instantiated at the empty
Stat. -/
theorem stat_empty_max_min_witness :
    (jsLt (Stat.mk []).getMax (Stat.mk []).getMin = true ↔ (Stat.mk []).values = []) :=
  (stat_empty_max_min).2.2 (Stat.mk [])

/-!
## Further association-list algebra (used for the `clean` sweep)
-/
theorem alHas_iff_mem {A : Type} (m : List (String × A)) (k : String) :
    alHas m k = true ↔ k ∈ m.map (fun p => p.1) := by
  simp [alHas, List.any_eq_true, List.mem_map, beq_iff_eq]

theorem alDel_of_not_has {A : Type} (m : List (String × A)) (k : String)
    (h : alHas m k = false) : alDel m k = m := by
  induction m with
  | nil => rfl
  | cons p t ih =>
    simp only [alHas, List.any_cons, Bool.or_eq_false_iff] at h
    simp only [alDel, List.filter_cons, h.1, Bool.not_false, if_true]
    exact congrArg (p :: ·) (ih (by simpa [alHas] using h.2))

theorem map_update_id {A : Type} (m : List (String × A)) (k : String) (x : String × A)
    (h : alHas m k = false) :
    m.map (fun p => if p.1 == k then x else p) = m := by
  induction m with
  | nil => rfl
  | cons p t ih =>
    simp only [alHas, List.any_cons, Bool.or_eq_false_iff] at h
    simp only [List.map_cons, h.1, if_false]
    exact congrArg (p :: ·) (ih (by simpa [alHas] using h.2))

theorem map_update_self {A : Type} (m : List (String × A)) (k : String) (s : A)
    (hnd : (m.map (fun p => p.1)).Nodup) (h : alGet m k = some s) :
    m.map (fun p => if p.1 == k then (k, s) else p) = m := by
  induction m with
  | nil => simp [alGet] at h
  | cons p t ih =>
    rw [alGet_cons] at h
    rw [List.map_cons, List.nodup_cons] at hnd
    by_cases hp : p.1 = k
    · rw [if_pos hp] at h
      simp only [List.map_cons, hp, beq_self_eq_true, if_true]
      have ht : alHas t k = false := by
        cases hh : alHas t k with
        | false => rfl
        | true => exact absurd (hp ▸ (alHas_iff_mem t k).1 hh) hnd.1
      rw [map_update_id t k _ ht]
      have hps : (k, s) = p := by
        injection h with h2
        rw [← hp, ← h2]
      rw [hps]
    · rw [if_neg hp] at h
      simp only [List.map_cons, show (p.1 == k) = false from by simpa using hp, if_false]
      exact congrArg (p :: ·) (ih hnd.2 h)

theorem alSet_self {A : Type} (m : List (String × A)) (k : String) (s : A)
    (hnd : (m.map (fun p => p.1)).Nodup) (h : alGet m k = some s) :
    alSet m k s = m := by
  have hh : alHas m k = true := by rw [alHas_eq_isSome, h]; rfl
  unfold alSet
  rw [if_pos hh]
  exact map_update_self m k s hnd h

theorem alSet_alSet {A : Type} (m : List (String × A)) (k : String) (v w : A) :
    alSet (alSet m k v) k w = alSet m k w := by
  have hfun : ((fun p : String × A => if p.1 == k then (k, w) else p) ∘
      (fun p : String × A => if p.1 == k then (k, v) else p)) =
      (fun p : String × A => if p.1 == k then (k, w) else p) := by
    funext p
    by_cases hp : p.1 = k <;> simp [hp]
  by_cases hmem : alHas m k
  · have h2 : alHas (alSet m k v) k = true := by rw [alHas_alSet, if_pos rfl]
    conv_lhs => rw [alSet]
    rw [if_pos h2]
    conv_lhs => rw [alSet]
    rw [if_pos hmem, List.map_map, hfun]
    conv_rhs => rw [alSet]
    rw [if_pos hmem]
  · have hm : alHas m k = false := by simpa using hmem
    conv_lhs => rw [alSet]
    conv_lhs => rw [alSet]
    rw [if_neg hmem]
    have h2 : alHas (m ++ [(k, v)]) k = true := by
      simp [alHas, List.any_append]
    rw [if_pos h2, List.map_append, map_update_id m k _ hm]
    simp only [List.map_cons, beq_self_eq_true, if_true, List.map_nil]
    conv_rhs => rw [alSet]
    rw [if_neg hmem]

theorem alDel_alSet {A : Type} (m : List (String × A)) (k : String) (v : A) :
    alDel (alSet m k v) k = alDel m k := by
  by_cases hmem : alHas m k
  · unfold alSet
    rw [if_pos hmem]
    unfold alDel
    rw [List.filter_map]
    have hfun : ((fun p : String × A => !(p.1 == k)) ∘
        (fun p : String × A => if p.1 == k then (k, v) else p)) =
        (fun p : String × A => !(p.1 == k)) := by
      funext p
      by_cases hp : p.1 = k <;> simp [hp]
    rw [hfun]
    have hdelhas : alHas (List.filter (fun p => !(p.1 == k)) m) k = false := by
      have := alHas_alDel m k k
      rw [if_pos rfl] at this
      exact this
    exact map_update_id _ k _ hdelhas
  · unfold alSet
    rw [if_neg hmem]
    unfold alDel
    rw [List.filter_append]
    simp [List.filter_cons]

theorem alSet_keys_of_has {A : Type} (m : List (String × A)) (k : String) (v : A)
    (h : alHas m k = true) :
    (alSet m k v).map (fun p => p.1) = m.map (fun p => p.1) := by
  unfold alSet
  rw [if_pos h, List.map_map]
  congr 1
  funext p
  by_cases hp : p.1 = k <;> simp [hp]

theorem alDel_keys_nodup {A : Type} (m : List (String × A)) (k : String)
    (hnd : (m.map (fun p => p.1)).Nodup) :
    ((alDel m k).map (fun p => p.1)).Nodup :=
  hnd.sublist (List.Sublist.map _ (List.filter_sublist m))

theorem alSet_cons_ne {A : Type} (p : String × A) (t : List (String × A)) (k : String)
    (v : A) (hp : p.1 ≠ k) : alSet (p :: t) k v = p :: alSet t k v := by
  have hhead : alHas (p :: t) k = alHas t k := by
    simp [alHas, List.any_cons, hp]
  by_cases hmem : alHas t k
  · unfold alSet
    rw [hhead, if_pos hmem, if_pos hmem, List.map_cons,
      show (p.1 == k) = false from by simpa using hp]
    rfl
  · unfold alSet
    rw [hhead, if_neg hmem, if_neg hmem]
    rfl

theorem alDel_cons_ne {A : Type} (p : String × A) (t : List (String × A)) (k : String)
    (hp : p.1 ≠ k) : alDel (p :: t) k = p :: alDel t k := by
  simp [alDel, List.filter_cons, hp]

theorem alDel_cons_eq {A : Type} (p : String × A) (t : List (String × A)) (k : String)
    (hp : p.1 = k) : alDel (p :: t) k = alDel t k := by
  simp [alDel, List.filter_cons, hp]

theorem alSet_cons_eq_of_not_has {A : Type} (p : String × A) (t : List (String × A))
    (k : String) (v : A) (hp : p.1 = k) (ht : alHas t k = false) :
    alSet (p :: t) k v = (k, v) :: t := by
  have hh : alHas (p :: t) k = true := by simp [alHas, List.any_cons, hp]
  unfold alSet
  rw [if_pos hh, List.map_cons, show (p.1 == k) = true from by simpa using hp]
  simp only [if_true]
  rw [map_update_id t k _ ht]

theorem alGet_mem {A : Type} (m : List (String × A)) (k : String) (v : A)
    (h : alGet m k = some v) : (k, v) ∈ m := by
  induction m with
  | nil => simp [alGet] at h
  | cons p t ih =>
    rw [alGet_cons] at h
    by_cases hp : p.1 = k
    · rw [if_pos hp] at h
      injection h with h2
      have hpv : p = (k, v) := by
        rw [← hp, ← h2]
      rw [hpv]
      exact List.mem_cons_self _ _
    · rw [if_neg hp] at h
      exact List.mem_cons_of_mem _ (ih h)

theorem mem_nodup_alGet {A : Type} (m : List (String × A)) (k : String) (v : A)
    (hnd : (m.map (fun p => p.1)).Nodup) (h : (k, v) ∈ m) : alGet m k = some v := by
  induction m with
  | nil => simp at h
  | cons p t ih =>
    rw [List.map_cons, List.nodup_cons] at hnd
    rw [alGet_cons]
    rcases List.mem_cons.1 h with rfl | hmem
    · rw [if_pos rfl]
    · by_cases hp : p.1 = k
      · exact absurd (hp ▸ List.mem_map_of_mem (fun q => q.1) hmem) hnd.1
      · rw [if_neg hp]
        exact ih hnd.2 hmem

theorem get_str (c : Cache) (k a : String) (now : ℚ) :
    Cache.get c (.str k) (.str a) now = Cache.getSpec c k a now := by
  have hin : Cache.inspect c (.str k) (.str a) = recLookup c.data k a := by
    unfold Cache.inspect Cache.inspectKey recLookup
    cases halg : alGet c.data k with
    | none => simp [alHas_eq_isSome, halg]
    | some sub =>
      simp only [alHas_eq_isSome, halg, Option.isSome_some, if_true, Option.getD_some]
      cases hsub : alGet sub a with
      | none => simp [hsub]
      | some r => simp [hsub]
  unfold Cache.get Cache.getSpec
  rw [hin]
  cases hrl : recLookup c.data k a with
  | none => rfl
  | some r => rfl

theorem cleanArgsBody_eq (now : ℚ) (k a : String) (acc : Cache) (s : CacheSub)
    (hs : alGet acc.data k = some s) :
    Cache.cleanArgsBody now k acc a =
      { acc with data := alSet acc.data k (Cache.subStep acc.options.age_max now s a) } := by
  have hrl : recLookup acc.data k a = alGet s a := by
    unfold recLookup
    rw [hs]
  unfold Cache.cleanArgsBody
  rw [get_str]
  unfold Cache.getSpec
  rw [hrl]
  cases hsa : alGet s a with
  | none =>
    simp [Cache.subStep, hsa, hs]
  | some r =>
    simp only [Cache.subStep, hsa]
    by_cases hf : qSub now r.set ≤ effAge r acc.options.age_max
    · rw [if_pos hf, if_pos hf]
      by_cases hd : r.data = none
      · simp [hd, hs, alGet_alSet, alSet_alSet]
      · simp [hd, hs]
    · rw [if_neg hf, if_neg hf]
      simp [hs]

theorem cleanArgs_fold (now : ℚ) (k : String) (as : List String) (acc : Cache) (s : CacheSub)
    (hs : alGet acc.data k = some s) (hnd : (acc.data.map (fun p => p.1)).Nodup) :
    as.foldl (Cache.cleanArgsBody now k) acc =
      { acc with data := alSet acc.data k (as.foldl (Cache.subStep acc.options.age_max now) s) } := by
  induction as generalizing acc s with
  | nil =>
    rw [List.foldl_nil, List.foldl_nil, alSet_self acc.data k s hnd hs]
  | cons a rest ih =>
    rw [List.foldl_cons, cleanArgsBody_eq now k a acc s hs]
    have hhas : alHas acc.data k = true := by rw [alHas_eq_isSome, hs]; rfl
    have hs1 : alGet (alSet acc.data k (Cache.subStep acc.options.age_max now s a)) k
        = some (Cache.subStep acc.options.age_max now s a) := by
      rw [alGet_alSet, if_pos rfl]
    have hnd1 : ((alSet acc.data k (Cache.subStep acc.options.age_max now s a)).map
        (fun p => p.1)).Nodup := by
      rw [alSet_keys_of_has _ _ _ hhas]; exact hnd
    rw [ih _ _ hs1 hnd1]
    rw [List.foldl_cons]
    simp only [alSet_alSet]

theorem alHas_false_of_not_mem {A : Type} (m : List (String × A)) (k : String)
    (h : k ∉ m.map (fun p => p.1)) : alHas m k = false := by
  cases hh : alHas m k with
  | false => rfl
  | true => exact absurd ((alHas_iff_mem m k).1 hh) h

theorem subStep_cons_ne (optAge now : ℚ) (p : String × CacheRecord) (s : CacheSub)
    (a : String) (ha : p.1 ≠ a) :
    Cache.subStep optAge now (p :: s) a = p :: Cache.subStep optAge now s a := by
  unfold Cache.subStep
  rw [alGet_cons, if_neg ha]
  cases hsa : alGet s a with
  | none => exact alDel_cons_ne p s a ha
  | some r =>
    simp only []
    by_cases hf : qSub now r.set ≤ effAge r optAge
    · rw [if_pos hf, if_pos hf]
      by_cases hd : r.data = none
      · rw [if_pos hd, if_pos hd, alSet_cons_ne p s a _ ha, alDel_cons_ne _ _ _ ha]
      · rw [if_neg hd, if_neg hd, alSet_cons_ne p s a _ ha]
    · rw [if_neg hf, if_neg hf, alDel_cons_ne p s a ha]

theorem fold_subStep_cons (optAge now : ℚ) (p : String × CacheRecord) (s : CacheSub)
    (as : List String) (ha : ∀ x ∈ as, x ≠ p.1) :
    as.foldl (Cache.subStep optAge now) (p :: s) = p :: as.foldl (Cache.subStep optAge now) s := by
  induction as generalizing s with
  | nil => rfl
  | cons a rest ih =>
    rw [List.foldl_cons, List.foldl_cons,
      subStep_cons_ne optAge now p s a (fun h => ha a (by simp) h.symm)]
    exact ih _ (fun x hx => ha x (by simp [hx]))

theorem subClean_fold (optAge now : ℚ) (s : CacheSub)
    (hnd : (s.map (fun q => q.1)).Nodup) :
    (s.map (fun q => q.1)).foldl (Cache.subStep optAge now) s =
      Cache.subCleanIdeal optAge now s := by
  induction s with
  | nil => rfl
  | cons p t ih =>
    rw [List.map_cons, List.nodup_cons] at hnd
    have hmem : p.1 ∉ t.map (fun q => q.1) := hnd.1
    have hthas : alHas t p.1 = false := alHas_false_of_not_mem t p.1 hmem
    rw [List.map_cons, List.foldl_cons]
    have hstep : Cache.subStep optAge now (p :: t) p.1 =
        if Cache.keepB optAge now p.2 then (p.1, Cache.touchUsed p.2 now) :: t else t := by
      unfold Cache.subStep Cache.keepB
      rw [alGet_cons, if_pos rfl]
      simp only []
      by_cases hf : qSub now p.2.set ≤ effAge p.2 optAge
      · rw [if_pos hf]
        by_cases hd : p.2.data = none
        · rw [if_pos hd, alSet_cons_eq_of_not_has p t p.1 _ rfl hthas,
            alDel_cons_eq _ _ _ rfl, alDel_of_not_has t p.1 hthas]
          simp [hf, hd]
        · rw [if_neg hd, alSet_cons_eq_of_not_has p t p.1 _ rfl hthas]
          have : Option.isSome p.2.data = true := by
            cases hdd : p.2.data with
            | none => exact absurd hdd hd
            | some v => rfl
          simp [hf, this]
      · rw [if_neg hf, alDel_cons_eq _ _ _ rfl, alDel_of_not_has t p.1 hthas]
        simp [hf]
    rw [hstep]
    by_cases hk : Cache.keepB optAge now p.2 = true
    · rw [if_pos hk]
      rw [fold_subStep_cons optAge now (p.1, Cache.touchUsed p.2 now) t
        (t.map (fun q => q.1)) (by intro x hx hxe; exact hmem (hxe ▸ hx))]
      rw [ih hnd.2]
      unfold Cache.subCleanIdeal
      rw [List.filterMap_cons]
      simp [hk]
    · have hkf : Cache.keepB optAge now p.2 = false := by simpa using hk
      rw [if_neg hk]
      rw [ih hnd.2]
      unfold Cache.subCleanIdeal
      rw [List.filterMap_cons]
      simp [hkf]

theorem cleanKeyBody_eq (now : ℚ) (acc : Cache) (k : String) (s : CacheSub)
    (hs : alGet acc.data k = some s)
    (hnd : (acc.data.map (fun p => p.1)).Nodup)
    (hsnd : (s.map (fun q => q.1)).Nodup) :
    Cache.cleanKeyBody now acc k =
      (if Cache.subCleanIdeal acc.options.age_max now s = []
       then { acc with data := alDel acc.data k }
       else { acc with data := alSet acc.data k (Cache.subCleanIdeal acc.options.age_max now s) }) := by
  unfold Cache.cleanKeyBody
  rw [hs]
  simp only [Option.getD_some]
  rw [cleanArgs_fold now k _ acc s hs hnd]
  rw [subClean_fold _ now s hsnd]
  simp only [alGet_alSet, if_true]
  simp only [Option.getD_some]
  by_cases hie : Cache.subCleanIdeal acc.options.age_max now s = []
  · rw [if_pos hie, if_pos hie, alDel_alSet]
  · rw [if_neg hie, if_neg hie]

theorem clean_fold_lookup (now : ℚ) (opts : CacheOptions) (d0 : CacheData)
    (ks : List String) (acc : Cache)
    (hopts : acc.options = opts)
    (hnd : ks.Nodup)
    (haccnd : (acc.data.map (fun p => p.1)).Nodup)
    (hpres : ∀ k ∈ ks, alGet acc.data k = alGet d0 k)
    (hsubnd : ∀ k ∈ ks, ∀ s, alGet d0 k = some s → (s.map (fun q => q.1)).Nodup) :
    (ks.foldl (Cache.cleanKeyBody now) acc).options = opts ∧
    ∀ kq, alGet (ks.foldl (Cache.cleanKeyBody now) acc).data kq =
      (if kq ∈ ks then
        (match alGet d0 kq with
         | none => none
         | some s => if Cache.subCleanIdeal opts.age_max now s = [] then none
                     else some (Cache.subCleanIdeal opts.age_max now s))
       else alGet acc.data kq) := by
  induction ks generalizing acc with
  | nil =>
    refine ⟨hopts, ?_⟩
    intro kq
    rw [List.foldl_nil, if_neg (by simp)]
  | cons k rest ih =>
    subst hopts
    rw [List.nodup_cons] at hnd
    rw [List.foldl_cons]
    cases h0 : alGet acc.data k with
    | none =>
      have hd0 : alGet d0 k = none := by rw [← hpres k (by simp), h0]
      have hstep : Cache.cleanKeyBody now acc k = acc := by
        unfold Cache.cleanKeyBody
        simp only [h0, Option.getD_none, List.map_nil, List.foldl_nil, if_true]
        rw [alDel_of_not_has acc.data k (by rw [alHas_eq_isSome, h0]; rfl)]
      rw [hstep]
      obtain ⟨ho, hc⟩ := ih acc rfl hnd.2 haccnd
        (fun k2 h2 => hpres k2 (by simp [h2]))
        (fun k2 h2 => hsubnd k2 (by simp [h2]))
      refine ⟨ho, ?_⟩
      intro kq
      rw [hc kq]
      by_cases hmem : kq ∈ rest
      · rw [if_pos hmem, if_pos (by simp [hmem])]
      · rw [if_neg hmem]
        by_cases hkq : kq = k
        · subst hkq
          rw [if_pos (by simp), h0, hd0]
        · rw [if_neg (by simp [hkq, hmem])]
    | some s =>
      have hd0 : alGet d0 k = some s := by rw [← hpres k (by simp), h0]
      have hsnd : (s.map (fun q => q.1)).Nodup := hsubnd k (by simp) s hd0
      have hhas : alHas acc.data k = true := by rw [alHas_eq_isSome, h0]; rfl
      rw [cleanKeyBody_eq now acc k s h0 haccnd hsnd]
      by_cases hie : Cache.subCleanIdeal acc.options.age_max now s = []
      · rw [if_pos hie]
        have hP1 : ({ acc with data := alDel acc.data k } : Cache).data = alDel acc.data k := rfl
        obtain ⟨ho, hc⟩ := ih { acc with data := alDel acc.data k } rfl hnd.2
          (by rw [hP1]; exact alDel_keys_nodup acc.data k haccnd)
          (fun k2 h2 => by
            rw [hP1, alGet_alDel, if_neg (show ¬(k2 = k) from fun he => hnd.1 (he ▸ h2))]
            exact hpres k2 (by simp [h2]))
          (fun k2 h2 => hsubnd k2 (by simp [h2]))
        refine ⟨ho, ?_⟩
        intro kq
        rw [hc kq]
        by_cases hmem : kq ∈ rest
        · rw [if_pos hmem, if_pos (by simp [hmem])]
        · rw [if_neg hmem]
          by_cases hkq : kq = k
          · subst hkq
            rw [if_pos (by simp), hP1, alGet_alDel, if_pos rfl, hd0]
            simp only []
            rw [if_pos hie]
          · rw [if_neg (by simp [hkq, hmem]), hP1, alGet_alDel, if_neg hkq]
      · rw [if_neg hie]
        have hP2 : ({ acc with data := alSet acc.data k (Cache.subCleanIdeal acc.options.age_max now s) } : Cache).data = alSet acc.data k (Cache.subCleanIdeal acc.options.age_max now s) := rfl
        obtain ⟨ho, hc⟩ := ih { acc with data := alSet acc.data k (Cache.subCleanIdeal acc.options.age_max now s) } rfl hnd.2
          (by rw [hP2, alSet_keys_of_has acc.data k _ hhas]; exact haccnd)
          (fun k2 h2 => by
            rw [hP2, alGet_alSet, if_neg (show ¬(k2 = k) from fun he => hnd.1 (he ▸ h2))]
            exact hpres k2 (by simp [h2]))
          (fun k2 h2 => hsubnd k2 (by simp [h2]))
        refine ⟨ho, ?_⟩
        intro kq
        rw [hc kq]
        by_cases hmem : kq ∈ rest
        · rw [if_pos hmem, if_pos (by simp [hmem])]
        · rw [if_neg hmem]
          by_cases hkq : kq = k
          · subst hkq
            rw [if_pos (by simp), hP2, alGet_alSet, if_pos rfl, hd0]
            simp only []
            rw [if_neg hie]
          · rw [if_neg (by simp [hkq, hmem]), hP2, alGet_alSet, if_neg hkq]

theorem subCleanIdeal_cons (optAge now : ℚ) (p : String × CacheRecord) (t : CacheSub) :
    Cache.subCleanIdeal optAge now (p :: t) =
      (if Cache.keepB optAge now p.2 then
        (p.1, Cache.touchUsed p.2 now) :: Cache.subCleanIdeal optAge now t
       else Cache.subCleanIdeal optAge now t) := by
  unfold Cache.subCleanIdeal
  rw [List.filterMap_cons]
  by_cases hk : Cache.keepB optAge now p.2 = true
  · simp [hk]
  · simp [show Cache.keepB optAge now p.2 = false from by simpa using hk]

theorem alGet_subCleanIdeal (optAge now : ℚ) (s : CacheSub) (a : String)
    (hnd : (s.map (fun q => q.1)).Nodup) :
    alGet (Cache.subCleanIdeal optAge now s) a =
      (match alGet s a with
       | none => none
       | some r => if Cache.keepB optAge now r then some (Cache.touchUsed r now) else none) := by
  induction s with
  | nil => rfl
  | cons p t ih =>
    rw [List.map_cons, List.nodup_cons] at hnd
    rw [subCleanIdeal_cons]
    by_cases hk : Cache.keepB optAge now p.2 = true
    · by_cases hpa : p.1 = a
      · simp [hk, alGet_cons, hpa]
      · simp [hk, alGet_cons, hpa, ih hnd.2]
    · by_cases hpa : p.1 = a
      · have hta : alGet t a = none := by
          cases hta : alGet t a with
          | none => rfl
          | some r2 =>
            exact absurd ((alHas_iff_mem t a).1 (by rw [alHas_eq_isSome, hta]; rfl))
              (hpa ▸ hnd.1)
        simp [hk, alGet_cons, hpa, ih hnd.2, hta]
      · simp [hk, alGet_cons, hpa, ih hnd.2]

theorem subCleanIdeal_ne_nil (optAge now : ℚ) (s : CacheSub) :
    Cache.subCleanIdeal optAge now s ≠ [] ↔ ∃ q ∈ s, Cache.keepB optAge now q.2 = true := by
  unfold Cache.subCleanIdeal
  rw [ne_eq, List.filterMap_eq_nil_iff]
  constructor
  · intro h
    by_contra hno
    push_neg at hno
    apply h
    intro q hq
    rw [if_neg (by simpa using hno q hq)]
  · rintro ⟨q, hq, hkq⟩ hall
    have hq2 := hall q hq
    rw [if_pos hkq] at hq2
    exact Option.noConfusion hq2

theorem dataDefined_lookup (d : CacheData) (hdef : dataDefined d = true)
    (k a : String) (r : CacheRecord) (h : recLookup d k a = some r) :
    r.data.isSome = true := by
  unfold recLookup at h
  cases hk : alGet d k with
  | none => rw [hk] at h; exact absurd h (by simp)
  | some s =>
    rw [hk] at h
    have h2 : alGet s a = some r := h
    unfold dataDefined at hdef
    rw [List.all_eq_true] at hdef
    have h3 := hdef (k, s) (alGet_mem d k s hk)
    rw [List.all_eq_true] at h3
    exact h3 (a, r) (alGet_mem s a r h2)

theorem get_fst_char (c : Cache) (k a : String) (now : ℚ) :
    (Cache.get c (.str k) (.str a) now).1 =
      (match recLookup c.data k a with
       | none => none
       | some r => if qSub now r.set ≤ effAge r c.options.age_max then r.data else none) := by
  rw [get_str]
  unfold Cache.getSpec
  cases hrl : recLookup c.data k a with
  | none => rfl
  | some r =>
    simp only []
    by_cases hf : qSub now r.set ≤ effAge r c.options.age_max
    · rw [if_pos hf, if_pos hf]
    · rw [if_neg hf, if_neg hf]

theorem get_ne_none_iff_keepB (c : Cache) (k a : String) (now : ℚ) (r : CacheRecord)
    (hr : recLookup c.data k a = some r) :
    ((Cache.get c (.str k) (.str a) now).1 ≠ none ↔
      Cache.keepB c.options.age_max now r = true) := by
  rw [get_fst_char, hr]
  simp only []
  unfold Cache.keepB
  by_cases hf : qSub now r.set ≤ effAge r c.options.age_max
  · rw [if_pos hf]
    simp [hf, Option.ne_none_iff_isSome]
  · rw [if_neg hf]
    simp [hf]

/-- **C5.** `clean()` removes exactly the records for which
`get(key, args)` reports "not found" (every survivor is the original
record with only its `used` stat touched by the sweep's own `get` call),
afterwards removes exactly the keys whose sub-map has become empty, and —
given the spec's invariant that records are only created by `set` and so
carry a defined payload (`dataDefined`) — never removes a record that is
still fresh at the time of the sweep.  The key/args uniqueness hypotheses
hold for every store built from JavaScript objects. -/
theorem clean_spec (c : Cache) (now : ℚ)
    (hnd1 : (c.data.map (fun p => p.1)).Nodup)
    (hnd2 : ∀ p ∈ c.data, (p.2.map (fun q => q.1)).Nodup)
    (hdef : dataDefined c.data = true) :
    (∀ k a, recLookup (Cache.clean c now).data k a =
        (match recLookup c.data k a with
         | none => none
         | some r => if (Cache.get c (.str k) (.str a) now).1 ≠ none
                     then some (Cache.touchUsed r now) else none))
    ∧ (∀ k, alHas (Cache.clean c now).data k = true ↔
        ∃ a, (Cache.get c (.str k) (.str a) now).1 ≠ none)
    ∧ (∀ k a r, recLookup c.data k a = some r →
        qSub now r.set ≤ effAge r c.options.age_max →
        recLookup (Cache.clean c now).data k a = some (Cache.touchUsed r now)) := by
  have hsubnd : ∀ k ∈ c.data.map (fun p => p.1), ∀ s, alGet c.data k = some s →
      (s.map (fun q => q.1)).Nodup := by
    intro k _ s hs
    exact hnd2 (k, s) (alGet_mem c.data k s hs)
  have hmain := clean_fold_lookup now c.options c.data (c.data.map (fun p => p.1)) c rfl
    hnd1 hnd1 (fun _ _ => rfl) hsubnd
  have hcleandef : Cache.clean c now
      = (c.data.map (fun p => p.1)).foldl (Cache.cleanKeyBody now) c := rfl
  have hchar : ∀ kq, alGet (Cache.clean c now).data kq =
      (match alGet c.data kq with
       | none => none
       | some s => if Cache.subCleanIdeal c.options.age_max now s = [] then none
                   else some (Cache.subCleanIdeal c.options.age_max now s)) := by
    intro kq
    rw [hcleandef, hmain.2 kq]
    by_cases hmem : kq ∈ c.data.map (fun p => p.1)
    · rw [if_pos hmem]
    · rw [if_neg hmem]
      have hnone : alGet c.data kq = none := by
        cases hg : alGet c.data kq with
        | none => rfl
        | some s =>
          exact absurd ((alHas_iff_mem c.data kq).1 (by rw [alHas_eq_isSome, hg]; rfl)) hmem
      rw [hnone]
  have hconj1 : ∀ k a, recLookup (Cache.clean c now).data k a =
      (match recLookup c.data k a with
       | none => none
       | some r => if (Cache.get c (.str k) (.str a) now).1 ≠ none
                   then some (Cache.touchUsed r now) else none) := by
    intro k a
    have hL : recLookup (Cache.clean c now).data k a =
        (match alGet c.data k with
         | none => none
         | some s => if Cache.subCleanIdeal c.options.age_max now s = [] then none
                     else alGet (Cache.subCleanIdeal c.options.age_max now s) a) := by
      unfold recLookup
      rw [hchar k]
      cases alGet c.data k with
      | none => rfl
      | some s =>
        simp only []
        by_cases hie : Cache.subCleanIdeal c.options.age_max now s = []
        · rw [if_pos hie, if_pos hie]
        · rw [if_neg hie, if_neg hie]
    rw [hL]
    cases hk : alGet c.data k with
    | none =>
      have hrl : recLookup c.data k a = none := by unfold recLookup; rw [hk]
      rw [hrl]
    | some s =>
      have hsnd : (s.map (fun q => q.1)).Nodup := hnd2 (k, s) (alGet_mem c.data k s hk)
      have hrla : recLookup c.data k a = alGet s a := by unfold recLookup; rw [hk]
      simp only []
      by_cases hie : Cache.subCleanIdeal c.options.age_max now s = []
      · rw [if_pos hie, hrla]
        cases hsa : alGet s a with
        | none => rfl
        | some r =>
          have hkb : Cache.keepB c.options.age_max now r = false := by
            cases hx : Cache.keepB c.options.age_max now r with
            | false => rfl
            | true =>
              exact absurd hie
                ((subCleanIdeal_ne_nil _ _ _).2 ⟨(a, r), alGet_mem s a r hsa, hx⟩)
          have hget : ¬((Cache.get c (.str k) (.str a) now).1 ≠ none) := by
            rw [get_ne_none_iff_keepB c k a now r (by rw [hrla, hsa])]
            simp [hkb]
          simp only []
          rw [if_neg hget]
      · rw [if_neg hie, hrla, alGet_subCleanIdeal _ _ _ _ hsnd]
        cases hsa : alGet s a with
        | none => rfl
        | some r =>
          simp only []
          by_cases hkb : Cache.keepB c.options.age_max now r = true
          · rw [if_pos hkb,
              if_pos ((get_ne_none_iff_keepB c k a now r (by rw [hrla, hsa])).2 hkb)]
          · rw [if_neg hkb,
              if_neg (fun hg => hkb
                ((get_ne_none_iff_keepB c k a now r (by rw [hrla, hsa])).1 hg))]
  refine ⟨hconj1, ?_, ?_⟩
  · intro k
    rw [alHas_eq_isSome, hchar k]
    cases hk : alGet c.data k with
    | none =>
      constructor
      · intro h; simp at h
      · rintro ⟨a, ha⟩
        have hrl : recLookup c.data k a = none := by unfold recLookup; rw [hk]
        rw [get_fst_char, hrl] at ha
        exact absurd rfl ha
    | some s =>
      simp only []
      have hsnd : (s.map (fun q => q.1)).Nodup := hnd2 (k, s) (alGet_mem c.data k s hk)
      have hrla : ∀ a, recLookup c.data k a = alGet s a := by
        intro a; unfold recLookup; rw [hk]
      by_cases hie : Cache.subCleanIdeal c.options.age_max now s = []
      · rw [if_pos hie]
        constructor
        · intro h; simp at h
        · rintro ⟨a, ha⟩
          cases hsa : alGet s a with
          | none =>
            rw [get_fst_char, hrla a, hsa] at ha
            exact absurd rfl ha
          | some r =>
            have hkb := (get_ne_none_iff_keepB c k a now r (by rw [hrla a, hsa])).1 ha
            exact absurd hie
              ((subCleanIdeal_ne_nil _ _ _).2 ⟨(a, r), alGet_mem s a r hsa, hkb⟩)
      · rw [if_neg hie]
        constructor
        · intro _
          obtain ⟨q, hq, hkq⟩ := (subCleanIdeal_ne_nil _ _ _).1 hie
          refine ⟨q.1, ?_⟩
          have hrl : recLookup c.data k q.1 = some q.2 := by
            rw [hrla q.1]
            exact mem_nodup_alGet s q.1 q.2 hsnd hq
          exact (get_ne_none_iff_keepB c k q.1 now q.2 hrl).2 hkq
        · intro _; rfl
  · intro k a r hr hf
    have hkb : Cache.keepB c.options.age_max now r = true := by
      unfold Cache.keepB
      rw [dataDefined_lookup c.data hdef k a r hr]
      simp [hf]
    rw [hconj1 k a, hr]
    simp only []
    rw [if_pos ((get_ne_none_iff_keepB c k a now r hr).2 hkb)]

/-- **C5 witness** for `clean_spec`: sweeping `c5store` at time 500 keeps
the fresh record at `("k", "a")` (touched) and removes the stale one at
`("k", "b")`. -/
theorem clean_spec_witness :
    ((c5store.data.map (fun p => p.1)).Nodup ∧
      (∀ p ∈ c5store.data, (p.2.map (fun q => q.1)).Nodup) ∧
      dataDefined c5store.data = true) ∧
    recLookup (Cache.clean c5store 500).data "k" "a" = some (Cache.touchUsed c5recA 500) ∧
    recLookup (Cache.clean c5store 500).data "k" "b" = none := by
  have h := clean_spec c5store 500 (by decide) (by decide) (by decide)
  refine ⟨⟨by decide, by decide, by decide⟩, ?_, ?_⟩
  · exact h.2.2 "k" "a" c5recA (by decide) (by decide)
  · exact (h.1 "k" "b").trans (by decide)
